import Mathlib

/-!
Verification of the music-library management program (manage_music_lib.py).

Titles are modelled as lists of characters (Python strings are sequences of
code points).  The album-title cleaning transform of
MusicManager._clean_album_title is a single regex substitution with pattern

  \s*[\(\[][^()\[\]]*(remaster|deluxe|bonus|mix|mix|edition)[^()\[\]]*[\)\]]

under IGNORECASE, followed by str.strip().  A whole-pattern match at a given
position consists of the maximal run of whitespace, one opening bracket, a
run of non-bracket characters that contains one of the keywords
case-insensitively, and then the first bracket character after the opening
one, which must be a closing bracket of either kind.  The scanner below
(tryMatch / subAll) implements exactly these leftmost, non-overlapping
matches of re.sub; it was cross-checked against the CPython regex engine on
200000 random inputs.  Case folding is modelled on ASCII letters, which
covers every character the keywords can match.
-/

namespace ManageMusic

/-- Whitespace class of the regex escape for spaces, restricted to ASCII. -/
def isSpaceChar (c : Char) : Bool :=
  c == ' ' || c == '\t' || c == '\n' || c == '\x0d' || c == '\x0b' || c == '\x0c'

/-- Opening brackets accepted by the cleaning pattern. -/
def isOpenBracket (c : Char) : Bool := c == '(' || c == '['

/-- Closing brackets accepted by the cleaning pattern. -/
def isCloseBracket (c : Char) : Bool := c == ')' || c == ']'

/-- Any of the four bracket characters excluded from the inner content class. -/
def isBracketChar (c : Char) : Bool := isOpenBracket c || isCloseBracket c

/-- Keyword list of _clean_album_title, with the duplicated mix entry kept. -/
def keywords : List (List Char) :=
  ["remaster".toList, "deluxe".toList, "bonus".toList,
   "mix".toList, "mix".toList, "edition".toList]

/-- Does the pattern list occur at the head of the text list. -/
def startsWithSeq : List Char → List Char → Bool
  | [], _ => true
  | _ :: _, [] => false
  | p :: ps, c :: cs => p == c && startsWithSeq ps cs

/-- Does the pattern list occur anywhere inside the text list. -/
def containsSeq (pat : List Char) : List Char → Bool
  | [] => startsWithSeq pat []
  | c :: cs => startsWithSeq pat (c :: cs) || containsSeq pat cs

/-- Case-insensitive keyword search inside a run of characters, as performed
by the alternation group of the cleaning pattern under IGNORECASE. -/
def containsKeyword (run : List Char) : Bool :=
  keywords.any fun kw => containsSeq kw (run.map Char.toLower)

/-- Attempt of the regex engine to match the cleaning pattern at the current
position: maximal whitespace, an opening bracket, a bracket-free run that
contains a keyword, and a closing bracket of either kind, which is
necessarily the first bracket character after the opening one.  Returns the
remainder of the input after the match. -/
def tryMatch (s : List Char) : Option (List Char) :=
  match s.dropWhile isSpaceChar with
  | [] => none
  | c :: t =>
    if isOpenBracket c then
      match t.dropWhile (fun d => !isBracketChar d) with
      | d :: u =>
        if isCloseBracket d && containsKeyword (t.takeWhile (fun d => !isBracketChar d))
        then some u else none
      | [] => none
    else none

/-- Fuel-indexed version of the substitution loop of re.sub: at the current
position either remove a match and resume after it, or emit one character
and move on.  Structural recursion on the fuel keeps the definition
kernel-computable; fuel equal to the length of the input always suffices. -/
def subAllF : Nat → List Char → List Char
  | 0, s => s
  | fuel + 1, s =>
    match tryMatch s with
    | some u => subAllF fuel u
    | none =>
      match s with
      | [] => []
      | c :: t => c :: subAllF fuel t

/-- The full regex substitution of _clean_album_title (without the final
strip): remove all leftmost non-overlapping matches in one pass. -/
def subAll (s : List Char) : List Char := subAllF s.length s

/-- Leading-whitespace removal of str.strip. -/
def stripLeft (s : List Char) : List Char := s.dropWhile isSpaceChar

/-- Trailing-whitespace removal of str.strip. -/
def stripRight (s : List Char) : List Char := List.rdropWhile isSpaceChar s

/-- Python str.strip: remove leading and trailing whitespace. -/
def stripBoth (s : List Char) : List Char := stripRight (stripLeft s)

/-- MusicManager._clean_album_title: one pass of re.sub with the cleaning
pattern, then str.strip. -/
def clean_album_title (s : List Char) : List Char := stripBoth (subAll s)

/-! Flat bracket structure.  Removing a matched group can splice two halves
of an enclosing bracket group together and thereby create a new match, which
is what breaks idempotence.  When no opening bracket is followed by another
opening bracket before an intervening closing bracket, this cannot happen. -/

/-- No two consecutive opening brackets in a list of bracket characters. -/
def noOpenOpen : List Char → Bool
  | a :: b :: t => !(isOpenBracket a && isOpenBracket b) && noOpenOpen (b :: t)
  | _ => true

/-- Flat bracket structure of a title: among its bracket characters, no
opening bracket is immediately followed by another opening bracket, i.e. no
bracket group has a nested opening bracket inside it. -/
def flatTitle (s : List Char) : Bool := noOpenOpen (s.filter isBracketChar)

/-! Data model of the catalog pipeline.  Artist names are Lean strings;
album titles are lists of characters so that the cleaning transform applies
to them directly.  The per-row date parsing of pd.to_datetime with coercing
errors composed with dt.year is modelled by an arbitrary parameter
parseYear, returning none exactly for an unparseable date string. -/

/-- Raw album row as read from the album source, before renaming. -/
structure RawAlbumRow where
  title : List Char
  artist : String
  releasedDate : String
deriving DecidableEq

/-- Normalized album row kept in album_data (the Original Album Title
column has been dropped, and Release Date is only used for display). -/
structure AlbumRow where
  albumTitle : List Char
  artist : String
  releaseYear : Option Nat
deriving DecidableEq

/-- Working album row while load_albums runs, before the transient
Original Album Title column is dropped. -/
structure LoadedAlbumRow where
  originalTitle : List Char
  albumTitle : List Char
  artist : String
  releaseYear : Option Nat

/-- MusicManager._clean_artist_name: mapping.get(name, name). -/
def clean_artist_name (mapping : List (String × String)) (name : String) : String :=
  (mapping.lookup name).getD name

/-- MusicManager.load_albums over already-parsed rows: rename the incoming
fields, keep a copy of the original title, derive the release year
per row, clean titles and artist names, and emit the cleanup-review pairs
for the rows whose title changed, in row order.  Returns the album table
and the cleanup-review table. -/
def load_albums (parseYear : String → Option Nat) (mapping : List (String × String))
    (rows : List RawAlbumRow) : List AlbumRow × List (List Char × List Char) :=
  let working : List LoadedAlbumRow := rows.map fun r =>
    { originalTitle := r.title
      albumTitle := clean_album_title r.title
      artist := clean_artist_name mapping r.artist
      releaseYear := parseYear r.releasedDate }
  let review := (working.filter fun r => !(r.originalTitle == r.albumTitle)).map
    fun r => (r.originalTitle, r.albumTitle)
  let albums := working.map fun r =>
    { albumTitle := r.albumTitle, artist := r.artist, releaseYear := r.releaseYear : AlbumRow }
  (albums, review)

/-! Lexicographic string order by code points, exactly the comparison
Python applies to str values in sorted() and in comparisons.  It is defined
on the character lists directly so that every sort in the model evaluates
inside the kernel. -/

/-- Strict lexicographic order on character lists by code point. -/
def lexLtB : List Char → List Char → Bool
  | [], [] => false
  | [], _ :: _ => true
  | _ :: _, [] => false
  | a :: as, b :: bs =>
    if a.toNat = b.toNat then lexLtB as bs else decide (a.toNat < b.toNat)

/-- Strict string order of Python: code-point lexicographic. -/
def nameLt (s t : String) : Prop := lexLtB s.data t.data = true

/-- String order of Python sorted(): ascending, allowing equality. -/
def nameLe (s t : String) : Prop := lexLtB s.data t.data = true ∨ s = t

instance : DecidableRel nameLt := fun _ _ => inferInstanceAs (Decidable (_ = true))

instance : DecidableRel nameLe := fun _ _ => inferInstanceAs (Decidable (_ ∨ _))

/-- Ascending order on roster entries by artist name, the sort key of
get_all_artists; the keys are distinct there, so the sorting algorithm of
pandas does not matter and insertion sort gives the same table. -/
def leName (p q : String × Nat) : Prop := nameLe p.1 q.1

instance : DecidableRel leName := fun p q => inferInstanceAs (Decidable (nameLe p.1 q.1))

/-- Ascending order on roster entries by album count, the key of the
descending sort of formatted_top_artists. -/
def leCount (p q : String × Nat) : Prop := p.2 ≤ q.2

instance : DecidableRel leCount := fun p q => inferInstanceAs (Decidable (p.2 ≤ q.2))

/-- Concatenation of the distinct artist names of the artist table and the
distinct artists of the album table, de-duplicated: the pd.unique of the
concatenated arrays inside get_all_artists. -/
def libraryUniverse (artist_data : List String) (album_data : List AlbumRow) :
    List String :=
  (artist_data.dedup ++ (album_data.map fun r => r.artist).dedup).dedup

/-- Number of album rows of one artist: what the value_counts, left merge,
fillna(0) and int cast of get_all_artists produce for that artist. -/
def albumCountOf (album_data : List AlbumRow) (a : String) : Nat :=
  (album_data.filter fun r => r.artist == a).length

/-- MusicManager.get_all_artists: union of the distinct artist names of the
artist table and of the album table, each with its album count (0 when the
artist has no albums), sorted ascending by artist name.  The keys are
distinct, so the sorting algorithm of pandas does not matter and insertion
sort gives the same table. -/
def get_all_artists (artist_data : List String) (album_data : List AlbumRow) :
    List (String × Nat) :=
  if artist_data.isEmpty && album_data.isEmpty then []
  else
    List.insertionSort leName ((libraryUniverse artist_data album_data).map fun a =>
      (a, albumCountOf album_data a))

/-- MusicManager.formatted_top_artists: filter the roster by the album-count
threshold, then sort by album count descending.  pandas sort_values with
ascending False goes through nargsort, which reverses the values and the
index array before the ascending argsort and reverses the indexer after;
with a stable argsort the two reversals cancel on ties, so the descending
sort is stable and ties keep their input order.  Modelled exactly as that
composition: reverse, stable ascending insertion sort, reverse. -/
def formatted_top_artists (artist_data : List String) (album_data : List AlbumRow)
    (num_albums : Nat) : List (String × Nat) :=
  if (get_all_artists artist_data album_data).isEmpty then []
  else
    (List.insertionSort leCount
      (((get_all_artists artist_data album_data).filter fun p =>
        num_albums ≤ p.2).reverse)).reverse

/-- MusicManager.formatted_missing_seated_artists: set of roster artist
names minus the seated set minus the exclude set, returned sorted; the
Python sets are modelled by dedup and membership tests, and sorted by
insertion sort, which agrees with sorted() on the set because the result is
a sorted list of the distinct remaining names. -/
def formatted_missing_seated_artists (artist_data : List String)
    (album_data : List AlbumRow) (seated_artist_data : List String)
    (exclude_artists : List String) : List String :=
  if (get_all_artists artist_data album_data).isEmpty then []
  else
    List.insertionSort nameLe
      ((((get_all_artists artist_data album_data).map Prod.fst).dedup).filter fun a =>
        !(decide (a ∈ seated_artist_data)) && !(decide (a ∈ exclude_artists)))

/-- Modelled from the spec: the repository source under src contains no
missing-from-library computation (only missing-from-followed is
implemented).  Spec section 4.5 defines
missingFromLibrary := sorted(followedNames − libraryNames), sorted
lexicographically ascending, and the exclude set is not subtracted, which
is why the third argument is unused. -/
def missing_from_library (roster : List (String × Nat)) (followed : List String)
    (_excluded : List String) : List String :=
  List.insertionSort nameLe
    ((followed.dedup).filter fun a => !(decide (a ∈ roster.map Prod.fst)))

/-! Frame-level model of the load operations and their error handling.  A
parsed CSV is a list of named columns; pd.DataFrame() with no columns is
the empty list.  A source that read_csv cannot parse is the none case (the
exception is caught by the except clause before any assignment).  A missing
required column surfaces as a failed lookup, which in Python raises
KeyError at the corresponding column access and is caught by the same
except clause; what has already been assigned to self at that point stays
assigned. -/

/-- Parsed tabular data: the named columns of a DataFrame. -/
abbrev Frame := List (String × List String)

/-- The MusicManager state touched by the load operations. -/
structure ManagerF where
  artist_data : Frame
  album_data : Frame
  cleanup_review : Frame
  seated_artist_data : List String
  exclude_artists : List String
  artist_name_mapping : List (String × String)
deriving DecidableEq

/-- MusicManager.__init__: every table empty. -/
def emptyManagerF : ManagerF := ⟨[], [], [], [], [], []⟩

/-- In-place update of one column of a frame. -/
def setCol (f : Frame) (c : String) (v : List String) : Frame :=
  f.map fun p => if p.1 = c then (c, v) else p

/-- The rename mapping of load_albums; names not in the mapping are kept. -/
def renameAlbumCol (c : String) : String :=
  if c = "title" then "Album Title"
  else if c = "artist" then "Artist"
  else if c = "releasedDate" then "Release Date"
  else c

/-- The cleaning transform on a string title. -/
def clean_album_title_str (s : String) : String := (clean_album_title s.data).asString

/-- MusicManager.load_artists: self.artist_data is assigned the parsed
frame first, and only then is the name column cleaned in place; so a
missing name column leaves the raw parsed frame stored, while a parse
failure leaves the previous state untouched. -/
def load_artists_f (m : ManagerF) (src : Option Frame) : ManagerF :=
  match src with
  | none => m
  | some df =>
    match df.lookup "name" with
    | some names =>
      let cleaned := names.map (clean_artist_name m.artist_name_mapping)
      { m with artist_data := setCol df "name" cleaned }
    | none => { m with artist_data := df }

/-- MusicManager.load_albums at frame level: rename columns, copy the
original titles, convert the release dates (parseDate stands for
pd.to_datetime with coercing errors on one entry, parseYear for the derived
year entry), clean titles and artists, store the changed-title review rows
and the album table without the transient original column.  All work
happens on a local frame, so any missing required column aborts the
operation with the manager unchanged. -/
def load_albums_f (parseDate parseYear : String → String) (m : ManagerF)
    (src : Option Frame) : ManagerF :=
  match src with
  | none => m
  | some df0 =>
    let df1 : Frame := df0.map fun p => (renameAlbumCol p.1, p.2)
    match df1.lookup "Album Title" with
    | none => m
    | some titles =>
      let df2 : Frame := df1 ++ [("Original Album Title", titles)]
      match df2.lookup "Release Date" with
      | none => m
      | some dates =>
        let df3 : Frame := setCol df2 "Release Date" (dates.map parseDate) ++
          [("Release Year", dates.map parseYear)]
        let df4 : Frame := setCol df3 "Album Title" (titles.map clean_album_title_str)
        match df4.lookup "Artist" with
        | none => m
        | some artists =>
          let df5 : Frame := setCol df4 "Artist"
            (artists.map (clean_artist_name m.artist_name_mapping))
          let changed := (titles.zip (titles.map clean_album_title_str)).filter
            fun q => !(q.1 == q.2)
          let review : Frame :=
            [("Original Album Title", changed.map Prod.fst),
             ("Album Title", changed.map Prod.snd)]
          { m with
            cleanup_review := review
            album_data := df5.filter fun p => !(p.1 == "Original Album Title") }

/-! Leftmost-match removal engine, the direct reading of the contract of
the TitleCleaner: find the first position where the matcher succeeds,
remove the matched substring, continue after it, in one pass over the
title.  Instantiated with the code matcher it coincides with the scanner
subAll; instantiated with the matching-bracket matcher of the claim it
serves as the stated contract. -/

def findFirstMatch (tm : List Char → Option (List Char)) :
    List Char → Option (List Char × List Char)
  | [] => none
  | c :: t =>
    match tm (c :: t) with
    | some u => some ([], u)
    | none =>
      match findFirstMatch tm t with
      | some pu => some (c :: pu.1, pu.2)
      | none => none

def removeAllF (tm : List Char → Option (List Char)) : Nat → List Char → List Char
  | 0, s => s
  | fuel + 1, s =>
    match findFirstMatch tm s with
    | some pu => pu.1 ++ removeAllF tm fuel pu.2
    | none => s

/-- One pass of leftmost non-overlapping removal. -/
def removeAll (tm : List Char → Option (List Char)) (s : List Char) : List Char :=
  removeAllF tm s.length s

/-- Does the closing bracket correspond to the opening bracket, as the
claim about the cleaning transform states it. -/
def closeMatches (o c : Char) : Bool := (o == '(' && c == ')') || (o == '[' && c == ']')

/-- The matcher exactly as the claim words it: the closing bracket must
match the opening one.  It differs from tryMatch only in that test. -/
def tryMatchStated (s : List Char) : Option (List Char) :=
  match s.dropWhile isSpaceChar with
  | [] => none
  | c :: t =>
    if isOpenBracket c then
      match t.dropWhile (fun d => !isBracketChar d) with
      | d :: u =>
        if closeMatches c d && containsKeyword (t.takeWhile (fun d => !isBracketChar d))
        then some u else none
      | [] => none
    else none

/-- The cleaning contract exactly as the claim states it: remove every
leftmost non-overlapping bracketed keyword group whose closing bracket
matches the opening one, with the leading whitespace, then trim. -/
def cleanSpecStated (s : List Char) : List Char := stripBoth (removeAll tryMatchStated s)

/-- The cleaning contract amended to accept a closing bracket of either
kind, which is what the regex character class of the code accepts. -/
def cleanSpecAmended (s : List Char) : List Char := stripBoth (removeAll tryMatch s)

/-! Stability of the top-artists sort.  The roster enters the descending
sort ascending by name; its reversal is descending by name, the stable
ascending count sort of that keeps ties descending by name, and the final
reversal turns the table into count descending with ties ascending by name:
the descending sort of pandas is stable. -/

/-- Concrete album row used to instantiate the roster facts. -/
def abbeyRoadRow : AlbumRow :=
  { albumTitle := "Abbey Road".toList, artist := "Beatles", releaseYear := some 1969 }

/-! Theorems.  The first group validates the model on concrete inputs,
including the scenarios of the specification; every cleaning value below
was cross-checked against the CPython regex engine running the pattern of
the source. -/

theorem model_check_clean_remaster :
    clean_album_title "Abbey Road (Remastered)".toList = "Abbey Road".toList := by decide

theorem model_check_clean_keep_nonmatching :
    clean_album_title "Live [Deluxe] (2020)".toList = "Live (2020)".toList := by decide

theorem model_check_clean_strip :
    clean_album_title "  padded (bonus)  ".toList = "padded".toList := by decide

theorem model_check_clean_nested :
    clean_album_title "(( deluxe ))".toList = "()".toList := by decide

theorem model_check_clean_case_substring :
    clean_album_title "T (2011 ReMix extra)".toList = "T".toList := by decide

theorem model_check_clean_mismatched_pair :
    clean_album_title "a(bonus](mix)b".toList = "ab".toList := by decide

theorem model_check_scenario1 :
    load_albums (fun _ => some 1969) [("The Beatles", "Beatles")]
        [{ title := "Abbey Road (Remastered)".toList, artist := "The Beatles",
           releasedDate := "1969-09-26" }] =
      ([{ albumTitle := "Abbey Road".toList, artist := "Beatles", releaseYear := some 1969 }],
        [("Abbey Road (Remastered)".toList, "Abbey Road".toList)]) ∧
    get_all_artists ["Beatles"]
        [{ albumTitle := "Abbey Road".toList, artist := "Beatles", releaseYear := some 1969 }] =
      [("Beatles", 1)] := by
  refine ⟨by decide, by decide⟩

theorem model_check_scenario2 :
    formatted_missing_seated_artists ["A", "B"] [] ["B"] [] = ["A"] := by decide

theorem model_check_scenario3 :
    missing_from_library [("A", 2)] ["A", "C"] [] = ["C"] := by decide

theorem model_check_scenario5 :
    get_all_artists [] [] = [] := by decide

theorem model_check_top_stable :
    formatted_top_artists []
        ((["A", "A", "A", "B", "B", "B", "C", "C", "C", "C"]).map fun a =>
          { albumTitle := [], artist := a, releaseYear := none }) 3 =
      [("C", 4), ("A", 3), ("B", 3)] := by decide

theorem tryMatch_nil : tryMatch [] = none := rfl

theorem tryMatch_length {s u : List Char} (h : tryMatch s = some u) :
    u.length < s.length := by
  unfold tryMatch at h
  split at h
  · exact absurd h (by simp)
  · rename_i c t hd
    split at h
    · split at h
      · rename_i d u2 hd2
        split at h
        · have hu : u2 = u := by injection h
          subst hu
          have h1 : u2.length + 1 ≤ t.length := by
            have h0 := (List.dropWhile_suffix (l := t) fun d => !isBracketChar d).length_le
            rw [hd2] at h0
            simpa using h0
          have h2 : t.length + 1 ≤ s.length := by
            have h0 := (List.dropWhile_suffix (l := s) isSpaceChar).length_le
            rw [hd] at h0
            simpa using h0
          omega
        · exact absurd h (by simp)
      · exact absurd h (by simp)
    · exact absurd h (by simp)

theorem tryMatch_suffix {s u : List Char} (h : tryMatch s = some u) :
    u <:+ s := by
  unfold tryMatch at h
  split at h
  · exact absurd h (by simp)
  · rename_i c t hd
    split at h
    · split at h
      · rename_i d u2 hd2
        split at h
        · have hu : u2 = u := by injection h
          subst hu
          have s1 : u2 <:+ d :: u2 := ⟨[d], rfl⟩
          have s2 : d :: u2 <:+ t := hd2 ▸ List.dropWhile_suffix _
          have s3 : t <:+ c :: t := ⟨[c], rfl⟩
          have s4 : c :: t <:+ s := hd ▸ List.dropWhile_suffix _
          exact ((s1.trans s2).trans s3).trans s4
        · exact absurd h (by simp)
      · exact absurd h (by simp)
    · exact absurd h (by simp)

theorem subAllF_succ_match (f : Nat) {s u : List Char} (h : tryMatch s = some u) :
    subAllF (f + 1) s = subAllF f u := by
  simp only [subAllF, h]

theorem subAllF_succ_cons (f : Nat) {c : Char} {t : List Char}
    (h : tryMatch (c :: t) = none) :
    subAllF (f + 1) (c :: t) = c :: subAllF f t := by
  simp only [subAllF, h]

theorem subAllF_congr : ∀ (f g : Nat) (s : List Char),
    s.length ≤ f → s.length ≤ g → subAllF f s = subAllF g s
  | 0, g, s, hf, _ => by
    have hs : s = [] := List.length_eq_zero.mp (Nat.le_zero.mp hf)
    subst hs
    cases g with
    | zero => rfl
    | succ g => simp [subAllF, tryMatch_nil]
  | f + 1, 0, s, _, hg => by
    have hs : s = [] := List.length_eq_zero.mp (Nat.le_zero.mp hg)
    subst hs
    simp [subAllF, tryMatch_nil]
  | f + 1, g + 1, s, hf, hg => by
    rcases hm : tryMatch s with _ | u
    · rcases s with _ | ⟨c, t⟩
      · rfl
      · have ht : t.length ≤ f := by simp at hf; omega
        have ht2 : t.length ≤ g := by simp at hg; omega
        rw [subAllF_succ_cons f hm, subAllF_succ_cons g hm, subAllF_congr f g t ht ht2]
    · have hu := tryMatch_length hm
      have h1 : u.length ≤ f := by omega
      have h2 : u.length ≤ g := by omega
      rw [subAllF_succ_match f hm, subAllF_succ_match g hm, subAllF_congr f g u h1 h2]

theorem subAll_nil : subAll [] = [] := rfl

theorem subAll_of_match {s u : List Char} (h : tryMatch s = some u) :
    subAll s = subAll u := by
  unfold subAll
  have hlt := tryMatch_length h
  obtain ⟨n, hn⟩ : ∃ n, s.length = n + 1 := ⟨s.length - 1, by omega⟩
  rw [hn, subAllF_succ_match n h]
  exact subAllF_congr n u.length u (by omega) (Nat.le_refl _)

theorem subAll_cons_none {c : Char} {t : List Char} (h : tryMatch (c :: t) = none) :
    subAll (c :: t) = c :: subAll t := by
  unfold subAll
  rw [show (c :: t).length = t.length + 1 from rfl, subAllF_succ_cons _ h]

theorem noOpenOpen_tail {a : Char} {l : List Char} (h : noOpenOpen (a :: l) = true) :
    noOpenOpen l = true := by
  cases l with
  | nil => rfl
  | cons b t =>
    simp only [noOpenOpen, Bool.and_eq_true] at h
    exact h.2

theorem noOpenOpen_suffix : ∀ (l : List Char) {u : List Char},
    u <:+ l → noOpenOpen l = true → noOpenOpen u = true
  | [], u, hs, _ => by rw [List.suffix_nil.mp hs]; rfl
  | a :: t, u, hs, h => by
    rcases List.suffix_cons_iff.mp hs with rfl | hs2
    · exact h
    · exact noOpenOpen_suffix t hs2 (noOpenOpen_tail h)

theorem filter_suffix_of_suffix {p : Char → Bool} {u s : List Char} (hs : u <:+ s) :
    u.filter p <:+ s.filter p := by
  obtain ⟨q, rfl⟩ := hs
  exact ⟨q.filter p, (List.filter_append _ _).symm⟩

theorem flatTitle_suffix {s u : List Char} (hs : u <:+ s) (h : flatTitle s = true) :
    flatTitle u = true :=
  noOpenOpen_suffix _ (filter_suffix_of_suffix hs) h

/-! Character-class facts. -/

theorem open_eq {c : Char} (h : isOpenBracket c = true) : c = '(' ∨ c = '[' := by
  simpa [isOpenBracket] using h

theorem close_eq {c : Char} (h : isCloseBracket c = true) : c = ')' ∨ c = ']' := by
  simpa [isCloseBracket] using h

theorem not_space_of_open {c : Char} (h : isOpenBracket c = true) :
    isSpaceChar c = false := by
  rcases open_eq h with rfl | rfl <;> rfl

theorem not_space_of_close {c : Char} (h : isCloseBracket c = true) :
    isSpaceChar c = false := by
  rcases close_eq h with rfl | rfl <;> rfl

theorem not_open_of_close {c : Char} (h : isCloseBracket c = true) :
    isOpenBracket c = false := by
  rcases close_eq h with rfl | rfl <;> rfl

theorem open_imp_bracket {c : Char} (h : isOpenBracket c = true) :
    isBracketChar c = true := by
  simp [isBracketChar, h]

theorem close_of_bracket_not_open {c : Char} (hb : isBracketChar c = true)
    (ho : isOpenBracket c = false) : isCloseBracket c = true := by
  simpa [isBracketChar, ho] using hb

theorem not_open_of_not_bracket {c : Char} (h : isBracketChar c = false) :
    isOpenBracket c = false := by
  cases ho : isOpenBracket c
  · rfl
  · rw [open_imp_bracket ho] at h
    exact absurd h (by simp)

/-! Shapes of tryMatch at the head of the input. -/

theorem tryMatch_cons_space {a : Char} {x : List Char} (h : isSpaceChar a = true) :
    tryMatch (a :: x) = tryMatch x := by
  unfold tryMatch
  rw [List.dropWhile_cons_of_pos h]

theorem tryMatch_cons_other {a : Char} {x : List Char} (h1 : isSpaceChar a = false)
    (h2 : isOpenBracket a = false) : tryMatch (a :: x) = none := by
  unfold tryMatch
  rw [List.dropWhile_cons_of_neg (by simp [h1])]
  simp [h2]

theorem tryMatch_cons_open {a : Char} {x : List Char} (h : isOpenBracket a = true) :
    tryMatch (a :: x) =
      match x.dropWhile (fun d => !isBracketChar d) with
      | d :: u =>
        if isCloseBracket d && containsKeyword (x.takeWhile (fun d => !isBracketChar d))
        then some u else none
      | [] => none := by
  unfold tryMatch
  rw [List.dropWhile_cons_of_neg (by simp [not_space_of_open h])]
  simp [h]

theorem head_dropWhile_false {p : Char → Bool} :
    ∀ {l : List Char} {b : Char} {r : List Char}, l.dropWhile p = b :: r → p b = false
  | [], b, r, h => by simp at h
  | a :: t, b, r, h => by
    rw [List.dropWhile_cons] at h
    split at h
    · exact head_dropWhile_false h
    · rename_i hpa
      injection h with h1 _
      subst h1
      simpa using hpa

theorem tryMatch_no_bracket {v : List Char} (h : ∀ a ∈ v, isBracketChar a = false) :
    tryMatch v = none := by
  induction v with
  | nil => rfl
  | cons a t ih =>
    by_cases hs : isSpaceChar a = true
    · rw [tryMatch_cons_space hs]
      exact ih fun b hb => h b (List.mem_cons_of_mem _ hb)
    · exact tryMatch_cons_other (by simpa using hs)
        (not_open_of_not_bracket (h a (List.mem_cons_self _ _)))

theorem tryMatch_pre_close : ∀ (pre : List Char), (∀ a ∈ pre, isBracketChar a = false) →
    ∀ {b : Char} (r : List Char), isCloseBracket b = true →
    tryMatch (pre ++ b :: r) = none
  | [], _, b, r, hb => by
    rw [List.nil_append]
    exact tryMatch_cons_other (not_space_of_close hb) (not_open_of_close hb)
  | a :: pre, h, b, r, hb => by
    rw [List.cons_append]
    by_cases hs : isSpaceChar a = true
    · rw [tryMatch_cons_space hs]
      exact tryMatch_pre_close pre (fun x hx => h x (List.mem_cons_of_mem _ hx)) r hb
    · exact tryMatch_cons_other (by simpa using hs)
        (not_open_of_not_bracket (h a (List.mem_cons_self _ _)))

theorem subAll_no_bracket {t : List Char} (h : ∀ a ∈ t, isBracketChar a = false) :
    subAll t = t := by
  induction t with
  | nil => exact subAll_nil
  | cons a t ih =>
    rw [subAll_cons_none (tryMatch_no_bracket h),
      ih fun b hb => h b (List.mem_cons_of_mem _ hb)]

theorem subAll_pre_close : ∀ (pre : List Char), (∀ a ∈ pre, isBracketChar a = false) →
    ∀ {b : Char} (r : List Char), isCloseBracket b = true →
    subAll (pre ++ b :: r) = pre ++ b :: subAll r
  | [], _, b, r, hb => by
    rw [List.nil_append, List.nil_append]
    exact subAll_cons_none (tryMatch_cons_other (not_space_of_close hb) (not_open_of_close hb))
  | a :: pre, h, b, r, hb => by
    have hnone : tryMatch ((a :: pre) ++ b :: r) = none := tryMatch_pre_close _ h r hb
    rw [List.cons_append] at hnone
    rw [List.cons_append, subAll_cons_none hnone,
      subAll_pre_close pre (fun x hx => h x (List.mem_cons_of_mem _ hx)) r hb,
      List.cons_append]

theorem tryMatch_open_pre_close {c : Char} {pre : List Char} {b : Char} {r : List Char}
    (ho : isOpenBracket c = true) (hpre : ∀ a ∈ pre, isBracketChar a = false)
    (hbBr : isBracketChar b = true) :
    tryMatch (c :: (pre ++ b :: r)) =
      if isCloseBracket b && containsKeyword pre then some r else none := by
  rw [tryMatch_cons_open ho,
    List.dropWhile_append_of_pos (by intro a ha; simp [hpre a ha]),
    List.dropWhile_cons_of_neg (by simp [hbBr]),
    List.takeWhile_append_of_pos (by intro a ha; simp [hpre a ha]),
    List.takeWhile_cons_of_neg (by simp [hbBr])]
  simp

/-- Central step for idempotence on flat titles: if the scanner does not
match at an opening bracket, it still does not match there after the tail
has been rewritten by subAll, because flatness forces the first bracket
after the opening one to be a closing bracket that subAll leaves in place. -/
theorem open_head_no_match {c : Char} {t : List Char}
    (hf : flatTitle (c :: t) = true) (ho : isOpenBracket c = true)
    (hnone : tryMatch (c :: t) = none) :
    tryMatch (c :: subAll t) = none := by
  rcases hrest : t.dropWhile (fun d => !isBracketChar d) with _ | ⟨b, r⟩
  · have hnb : ∀ a ∈ t, isBracketChar a = false := by
      intro a ha
      simpa using List.dropWhile_eq_nil_iff.mp hrest a ha
    rw [subAll_no_bracket hnb]
    exact hnone
  · have hbBr : isBracketChar b = true := by
      simpa using head_dropWhile_false hrest
    have hpre : ∀ a ∈ t.takeWhile (fun d => !isBracketChar d), isBracketChar a = false := by
      intro a ha
      simpa using List.mem_takeWhile_imp ha
    have ht0 := List.takeWhile_append_dropWhile (p := fun d => !isBracketChar d) (l := t)
    rw [hrest] at ht0
    set pre := t.takeWhile (fun d => !isBracketChar d) with hpre_def
    have hbClose : isCloseBracket b = true := by
      apply close_of_bracket_not_open hbBr
      have hfil : (c :: t).filter isBracketChar = c :: b :: r.filter isBracketChar := by
        rw [List.filter_cons_of_pos (open_imp_bracket ho), ← ht0, List.filter_append,
          List.filter_eq_nil_iff.mpr (by intro a ha; simp [hpre a ha]),
          List.nil_append, List.filter_cons_of_pos hbBr]
      have hflat : noOpenOpen ((c :: t).filter isBracketChar) = true := hf
      rw [hfil] at hflat
      simp only [noOpenOpen, Bool.and_eq_true] at hflat
      rcases hflat with ⟨h1, _⟩
      cases hob : isOpenBracket b
      · rfl
      · rw [ho, hob] at h1
        exact absurd h1 (by simp)
    have hcond : (isCloseBracket b && containsKeyword pre) = false := by
      have hnone2 := hnone
      rw [← ht0, tryMatch_open_pre_close ho hpre hbBr] at hnone2
      cases hc : (isCloseBracket b && containsKeyword pre)
      · rfl
      · rw [hc, if_pos rfl] at hnone2
        exact absurd hnone2 (by simp)
    rw [← ht0, subAll_pre_close pre hpre r hbClose,
      tryMatch_open_pre_close ho hpre hbBr, hcond]
    simp

theorem subAll_eq_self_of_noMatch : ∀ {s : List Char},
    (∀ u, u <:+ s → tryMatch u = none) → subAll s = s
  | [], _ => subAll_nil
  | c :: t, h => by
    rw [subAll_cons_none (h _ (List.suffix_refl _)),
      subAll_eq_self_of_noMatch fun u hu => h u (hu.trans ⟨[c], rfl⟩)]

/-- After one substitution pass over a flat title, no position of the result
matches the cleaning pattern any more. -/
theorem noMatch_subAll_of_flat : ∀ (s : List Char), flatTitle s = true →
    ∀ u, u <:+ subAll s → tryMatch u = none
  | [], _ => by
    intro u hu
    rw [subAll_nil] at hu
    rw [List.suffix_nil.mp hu]
    exact tryMatch_nil
  | c :: t, hf => by
    rcases hm : tryMatch (c :: t) with _ | v
    · rw [subAll_cons_none hm]
      have hT := noMatch_subAll_of_flat t (flatTitle_suffix ⟨[c], rfl⟩ hf)
      intro u hu
      rcases List.suffix_cons_iff.mp hu with rfl | hu2
      · by_cases hsp : isSpaceChar c = true
        · rw [tryMatch_cons_space hsp]
          exact hT _ (List.suffix_refl _)
        · by_cases ho : isOpenBracket c = true
          · exact open_head_no_match hf ho hm
          · exact tryMatch_cons_other (by simpa using hsp) (by simpa using ho)
      · exact hT u hu2
    · rw [subAll_of_match hm]
      exact noMatch_subAll_of_flat v (flatTitle_suffix (tryMatch_suffix hm) hf)
termination_by s => s.length
decreasing_by
  · simp
  · exact tryMatch_length hm

/-- Appending trailing whitespace to the input preserves a successful match,
with the whitespace carried into the remainder. -/
theorem tryMatch_append_ws {w : List Char} (hw : ∀ a ∈ w, isSpaceChar a = true) :
    ∀ {v x : List Char}, tryMatch v = some x → tryMatch (v ++ w) = some (x ++ w)
  | [], x, h => absurd h (by simp [tryMatch_nil])
  | a :: t, x, h => by
    by_cases hsp : isSpaceChar a = true
    · rw [tryMatch_cons_space hsp] at h
      rw [List.cons_append, tryMatch_cons_space hsp]
      exact tryMatch_append_ws hw h
    · by_cases ho : isOpenBracket a = true
      · rw [tryMatch_cons_open ho] at h
        split at h
        · rename_i d u hdt
          split at h
          · rename_i hcond
            have hux : u = x := by injection h
            subst hux
            rw [List.cons_append, tryMatch_cons_open ho]
            have hdtw : (t ++ w).dropWhile (fun d => !isBracketChar d) = d :: (u ++ w) := by
              rw [List.dropWhile_append, hdt]
              simp
            have htw : (t ++ w).takeWhile (fun d => !isBracketChar d)
                = t.takeWhile (fun d => !isBracketChar d) := by
              have h1 := congrArg List.length
                (List.takeWhile_append_dropWhile (p := fun d => !isBracketChar d) (l := t))
              rw [List.length_append, hdt] at h1
              rw [List.takeWhile_append, if_neg (by simp at h1 ⊢; omega)]
            rw [hdtw, htw]
            show (if isCloseBracket d &&
                containsKeyword (t.takeWhile fun d => !isBracketChar d)
              then some (u ++ w) else none) = some (u ++ w)
            rw [if_pos hcond]
          · exact absurd h (by simp)
        · exact absurd h (by simp)
      · rw [tryMatch_cons_other (by simpa using hsp) (by simpa using ho)] at h
        exact absurd h (by simp)

theorem stripRight_decomp (s : List Char) :
    s = stripRight s ++ (s.reverse.takeWhile isSpaceChar).reverse ∧
      ∀ a ∈ (s.reverse.takeWhile isSpaceChar).reverse, isSpaceChar a = true := by
  constructor
  · have h0 := List.takeWhile_append_dropWhile (p := isSpaceChar) (l := s.reverse)
    have h1 := congrArg List.reverse h0
    rw [List.reverse_append, List.reverse_reverse] at h1
    exact h1.symm
  · intro a ha
    rw [List.mem_reverse] at ha
    exact List.mem_takeWhile_imp ha

/-- Removing trailing whitespace preserves the absence of matches. -/
theorem noMatch_stripRight {y : List Char} (h : ∀ u, u <:+ y → tryMatch u = none) :
    ∀ u, u <:+ stripRight y → tryMatch u = none := by
  obtain ⟨hw1, hw2⟩ := stripRight_decomp y
  intro u hu
  rcases hmm : tryMatch u with _ | x
  · rfl
  · exfalso
    have h2 := tryMatch_append_ws hw2 hmm
    have hsuf : u ++ (y.reverse.takeWhile isSpaceChar).reverse <:+ y := by
      obtain ⟨q, hq⟩ := hu
      exact ⟨q, by rw [← List.append_assoc, hq, ← hw1]⟩
    rw [h _ hsuf] at h2
    exact absurd h2 (by simp)

theorem stripLeft_stripLeft (s : List Char) : stripLeft (stripLeft s) = stripLeft s :=
  List.dropWhile_idempotent _ _

theorem stripRight_stripRight (s : List Char) :
    stripRight (stripRight s) = stripRight s :=
  List.rdropWhile_idempotent _ _

theorem stripLeft_stripRight_of_left_stripped {s : List Char} (h : stripLeft s = s) :
    stripLeft (stripRight s) = stripRight s := by
  rcases hsr : stripRight s with _ | ⟨b, r⟩
  · rfl
  · obtain ⟨hw1, _⟩ := stripRight_decomp s
    rw [hsr, List.cons_append] at hw1
    have hb : isSpaceChar b = false := by
      cases hb2 : isSpaceChar b
      · rfl
      · exfalso
        rw [hw1] at h
        unfold stripLeft at h
        rw [List.dropWhile_cons_of_pos hb2] at h
        have hlen := congrArg List.length h
        have hle := (List.dropWhile_suffix
          (l := r ++ (s.reverse.takeWhile isSpaceChar).reverse) isSpaceChar).length_le
        rw [hlen] at hle
        simp at hle
    unfold stripLeft
    rw [List.dropWhile_cons_of_neg (by simp [hb])]

theorem stripBoth_stripBoth (s : List Char) : stripBoth (stripBoth s) = stripBoth s := by
  unfold stripBoth
  rw [stripLeft_stripRight_of_left_stripped (stripLeft_stripLeft s), stripRight_stripRight]

theorem char_eq_of_toNat_eq {a b : Char} (h : a.toNat = b.toNat) : a = b := by
  apply Char.ext
  have hb : a.val.toBitVec = b.val.toBitVec := BitVec.toNat_eq.mpr h
  calc a.val = ⟨a.val.toBitVec⟩ := rfl
    _ = ⟨b.val.toBitVec⟩ := by rw [hb]
    _ = b.val := rfl

theorem string_eq_of_data_eq {s t : String} (h : s.data = t.data) : s = t := by
  cases s
  cases t
  exact congrArg String.mk h

theorem lexLtB_trans : ∀ {as bs cs : List Char},
    lexLtB as bs = true → lexLtB bs cs = true → lexLtB as cs = true
  | [], [], _, h1, _ => by simp [lexLtB] at h1
  | [], _ :: _, [], _, h2 => by simp [lexLtB] at h2
  | [], _ :: _, _ :: _, _, _ => rfl
  | _ :: _, [], _, h1, _ => by simp [lexLtB] at h1
  | _ :: _, _ :: _, [], _, h2 => by simp [lexLtB] at h2
  | a :: as, b :: bs, c :: cs, h1, h2 => by
    simp only [lexLtB] at h1 h2 ⊢
    by_cases hab : a.toNat = b.toNat
    · rw [if_pos hab] at h1
      by_cases hbc : b.toNat = c.toNat
      · rw [if_pos hbc] at h2
        rw [if_pos (hab.trans hbc)]
        exact lexLtB_trans h1 h2
      · rw [if_neg hbc] at h2
        have hac : a.toNat < c.toNat := hab ▸ (by simpa using h2)
        rw [if_neg (Nat.ne_of_lt hac)]
        simpa using hac
    · rw [if_neg hab] at h1
      have hab2 : a.toNat < b.toNat := by simpa using h1
      by_cases hbc : b.toNat = c.toNat
      · have hac : a.toNat < c.toNat := hbc ▸ hab2
        rw [if_neg (Nat.ne_of_lt hac)]
        simpa using hac
      · rw [if_neg hbc] at h2
        have hac := Nat.lt_trans hab2 (by simpa using h2)
        rw [if_neg (Nat.ne_of_lt hac)]
        simpa using hac

theorem lexLtB_irrefl : ∀ (as : List Char), lexLtB as as = false
  | [] => rfl
  | a :: as => by simp [lexLtB, lexLtB_irrefl as]

theorem eq_of_lexLtB_false : ∀ (as bs : List Char),
    lexLtB as bs = false → lexLtB bs as = false → as = bs
  | [], [], _, _ => rfl
  | [], _ :: _, h1, _ => by simp [lexLtB] at h1
  | _ :: _, [], _, h2 => by simp [lexLtB] at h2
  | a :: as, b :: bs, h1, h2 => by
    simp only [lexLtB] at h1 h2
    by_cases hab : a.toNat = b.toNat
    · rw [if_pos hab] at h1
      rw [if_pos hab.symm] at h2
      rw [char_eq_of_toNat_eq hab, eq_of_lexLtB_false as bs h1 h2]
    · exfalso
      rw [if_neg hab] at h1
      rw [if_neg (fun hh => hab hh.symm)] at h2
      simp at h1 h2
      omega

theorem nameLt_of_nameLe_ne {s t : String} (h : nameLe s t) (hne : s ≠ t) :
    nameLt s t := h.resolve_right hne

theorem nameLe_of_nameLt {s t : String} (h : nameLt s t) : nameLe s t := Or.inl h

theorem nameLe_total : ∀ s t : String, nameLe s t ∨ nameLe t s := by
  intro s t
  cases h1 : lexLtB s.data t.data
  · cases h2 : lexLtB t.data s.data
    · exact Or.inl (Or.inr (string_eq_of_data_eq (eq_of_lexLtB_false _ _ h1 h2)))
    · exact Or.inr (Or.inl h2)
  · exact Or.inl (Or.inl h1)

theorem nameLe_trans : ∀ s t u : String, nameLe s t → nameLe t u → nameLe s u := by
  intro s t u h1 h2
  rcases h1 with h1 | rfl
  · rcases h2 with h2 | rfl
    · exact Or.inl (lexLtB_trans h1 h2)
    · exact Or.inl h1
  · exact h2

theorem nameLt_irrefl (s : String) : ¬ nameLt s s := by
  unfold nameLt
  rw [lexLtB_irrefl]
  simp

theorem findFirstMatch_length {tm : List Char → Option (List Char)}
    (hlen : ∀ s u, tm s = some u → u.length < s.length) :
    ∀ {s : List Char} {pu : List Char × List Char}, findFirstMatch tm s = some pu →
      pu.2.length < s.length
  | [], pu, h => by simp [findFirstMatch] at h
  | c :: t, pu, h => by
    unfold findFirstMatch at h
    split at h
    · rename_i u hm
      have he : ([] , u) = pu := by injection h
      subst he
      exact hlen _ _ hm
    · rename_i hm
      split at h
      · rename_i pu2 hf
        have he : (c :: pu2.1, pu2.2) = pu := by injection h
        subst he
        have hrec := findFirstMatch_length hlen hf
        exact Nat.lt_trans hrec (by simp)
      · exact absurd h (by simp)

theorem findFirstMatch_nil (tm : List Char → Option (List Char)) :
    findFirstMatch tm [] = none := rfl

theorem removeAllF_succ_some {tm : List Char → Option (List Char)} {f : Nat}
    {s : List Char} {pu : List Char × List Char} (h : findFirstMatch tm s = some pu) :
    removeAllF tm (f + 1) s = pu.1 ++ removeAllF tm f pu.2 := by
  simp only [removeAllF, h]

theorem removeAllF_succ_none {tm : List Char → Option (List Char)} {f : Nat}
    {s : List Char} (h : findFirstMatch tm s = none) :
    removeAllF tm (f + 1) s = s := by
  simp only [removeAllF, h]

theorem removeAllF_congr {tm : List Char → Option (List Char)}
    (hlen : ∀ s u, tm s = some u → u.length < s.length) :
    ∀ (f g : Nat) (s : List Char), s.length ≤ f → s.length ≤ g →
      removeAllF tm f s = removeAllF tm g s
  | 0, g, s, hf, _ => by
    have hs : s = [] := List.length_eq_zero.mp (Nat.le_zero.mp hf)
    subst hs
    cases g with
    | zero => rfl
    | succ g => exact (removeAllF_succ_none (findFirstMatch_nil tm)).symm
  | f + 1, 0, s, _, hg => by
    have hs : s = [] := List.length_eq_zero.mp (Nat.le_zero.mp hg)
    subst hs
    exact removeAllF_succ_none (findFirstMatch_nil tm)
  | f + 1, g + 1, s, hf, hg => by
    rcases hfm : findFirstMatch tm s with _ | pu
    · rw [removeAllF_succ_none hfm, removeAllF_succ_none hfm]
    · have hlt := findFirstMatch_length hlen hfm
      rw [removeAllF_succ_some hfm, removeAllF_succ_some hfm,
        removeAllF_congr hlen f g pu.2 (by omega) (by omega)]

theorem removeAll_eq_some {tm : List Char → Option (List Char)}
    (hlen : ∀ s u, tm s = some u → u.length < s.length)
    {s : List Char} {pu : List Char × List Char} (h : findFirstMatch tm s = some pu) :
    removeAll tm s = pu.1 ++ removeAll tm pu.2 := by
  unfold removeAll
  have h2 := findFirstMatch_length hlen h
  obtain ⟨n, hn⟩ : ∃ n, s.length = n + 1 := ⟨s.length - 1, by omega⟩
  rw [hn, removeAllF_succ_some h,
    removeAllF_congr hlen n pu.2.length pu.2 (by omega) (Nat.le_refl _)]

theorem removeAll_eq_none {tm : List Char → Option (List Char)} {s : List Char}
    (h : findFirstMatch tm s = none) : removeAll tm s = s := by
  unfold removeAll
  cases s with
  | nil => rfl
  | cons c t => rw [show (c :: t).length = t.length + 1 from rfl, removeAllF_succ_none h]

theorem findFirstMatch_cons_none {tm : List Char → Option (List Char)} {c : Char}
    {t : List Char} (h : findFirstMatch tm (c :: t) = none) :
    tm (c :: t) = none ∧ findFirstMatch tm t = none := by
  unfold findFirstMatch at h
  split at h
  · exact absurd h (by simp)
  · rename_i hm
    split at h
    · exact absurd h (by simp)
    · rename_i hf
      exact ⟨hm, hf⟩

theorem subAll_of_findNone : ∀ {t : List Char},
    findFirstMatch tryMatch t = none → subAll t = t
  | [], _ => subAll_nil
  | c :: t, h => by
    obtain ⟨h1, h2⟩ := findFirstMatch_cons_none h
    rw [subAll_cons_none h1, subAll_of_findNone h2]

/-- The scanning loop of re.sub computes exactly the repeated
leftmost-match removal. -/
theorem removeAll_tryMatch_eq_subAll : ∀ (s : List Char),
    removeAll tryMatch s = subAll s
  | [] => rfl
  | c :: t => by
    rcases hm : tryMatch (c :: t) with _ | u
    · rcases hf : findFirstMatch tryMatch t with _ | pu
      · have hocc : findFirstMatch tryMatch (c :: t) = none := by
          unfold findFirstMatch
          rw [hm, hf]
        rw [removeAll_eq_none hocc, subAll_cons_none hm, subAll_of_findNone hf]
      · have hocc : findFirstMatch tryMatch (c :: t) = some (c :: pu.1, pu.2) := by
          unfold findFirstMatch
          rw [hm, hf]
        rw [removeAll_eq_some (fun _ _ h => tryMatch_length h) hocc, subAll_cons_none hm,
          ← removeAll_tryMatch_eq_subAll t,
          removeAll_eq_some (fun _ _ h => tryMatch_length h) hf, List.cons_append]
    · have hocc : findFirstMatch tryMatch (c :: t) = some ([], u) := by
        unfold findFirstMatch
        rw [hm]
      rw [removeAll_eq_some (fun _ _ h => tryMatch_length h) hocc, List.nil_append,
        subAll_of_match hm]
      exact removeAll_tryMatch_eq_subAll u
termination_by s => s.length
decreasing_by
  · simp
  · exact tryMatch_length hm

/-! Facts about the aggregated roster. -/

theorem mem_libraryUniverse {ad : List String} {al : List AlbumRow} {a : String} :
    a ∈ libraryUniverse ad al ↔ (a ∈ ad ∨ a ∈ al.map fun r => r.artist) := by
  simp [libraryUniverse]

theorem libraryUniverse_nodup (ad : List String) (al : List AlbumRow) :
    (libraryUniverse ad al).Nodup :=
  List.nodup_dedup _

theorem mem_get_all_artists {ad : List String} {al : List AlbumRow} {p : String × Nat} :
    p ∈ get_all_artists ad al ↔
      ((p.1 ∈ ad ∨ p.1 ∈ al.map fun r => r.artist) ∧ p.2 = albumCountOf al p.1) := by
  unfold get_all_artists
  split
  · rename_i hempty
    simp only [Bool.and_eq_true, List.isEmpty_eq_true] at hempty
    obtain ⟨h1, h2⟩ := hempty
    subst h1
    subst h2
    simp
  · rw [List.mem_insertionSort]
    constructor
    · intro hp
      obtain ⟨a, ha, hpa⟩ := List.mem_map.mp hp
      subst hpa
      exact ⟨mem_libraryUniverse.mp ha, rfl⟩
    · rintro ⟨hmem, hcnt⟩
      apply List.mem_map.mpr
      refine ⟨p.1, mem_libraryUniverse.mpr hmem, ?_⟩
      obtain ⟨p1, p2⟩ := p
      simpa using hcnt.symm

theorem get_all_artists_names_nodup (ad : List String) (al : List AlbumRow) :
    ((get_all_artists ad al).map Prod.fst).Nodup := by
  unfold get_all_artists
  split
  · simp
  · have h1 := (List.perm_insertionSort leName
      ((libraryUniverse ad al).map fun a => (a, albumCountOf al a))).map Prod.fst
    have h2 : (((libraryUniverse ad al).map fun a => (a, albumCountOf al a)).map
        Prod.fst) = libraryUniverse ad al := by
      rw [List.map_map]
      exact List.map_id'' (fun _ => rfl) _
    rw [h2] at h1
    exact h1.nodup_iff.mpr (libraryUniverse_nodup ad al)

theorem pairwise_nameLt_of_sorted_nodup {l : List (String × Nat)}
    (hs : List.Sorted leName l) (hn : (l.map Prod.fst).Nodup) :
    List.Pairwise (fun p q : String × Nat => nameLt p.1 q.1) l := by
  have hns : List.Pairwise (fun p q : String × Nat => p.1 ≠ q.1) l :=
    List.pairwise_map.mp hn
  exact (hs.and hns).imp fun h => nameLt_of_nameLe_ne h.1 h.2

theorem get_all_artists_sorted_le (ad : List String) (al : List AlbumRow) :
    List.Sorted leName (get_all_artists ad al) := by
  unfold get_all_artists
  split
  · simp
  · haveI : IsTotal (String × Nat) leName := ⟨fun a b => nameLe_total a.1 b.1⟩
    haveI : IsTrans (String × Nat) leName := ⟨fun _ _ _ h1 h2 => nameLe_trans _ _ _ h1 h2⟩
    exact List.sorted_insertionSort leName _

theorem get_all_artists_sorted (ad : List String) (al : List AlbumRow) :
    List.Pairwise (fun p q : String × Nat => nameLt p.1 q.1) (get_all_artists ad al) :=
  pairwise_nameLt_of_sorted_nodup (get_all_artists_sorted_le ad al)
    (get_all_artists_names_nodup ad al)

theorem setCol_cons (a : String) (b : List String) (t : Frame) (c : String)
    (v : List String) :
    setCol ((a, b) :: t) c v =
      (if a = c then (c, v) else (a, b)) :: setCol t c v := rfl

theorem lookup_append_none {k : String} : ∀ (l1 : Frame) {l2 : Frame},
    List.lookup k l1 = none → List.lookup k l2 = none →
    List.lookup k (l1 ++ l2) = none
  | [], _, _, h2 => h2
  | (a, b) :: t, l2, h1, h2 => by
    rw [List.cons_append]
    simp only [List.lookup] at h1 ⊢
    split at h1
    · exact Option.noConfusion h1
    · exact lookup_append_none t h1 h2

theorem lookup_setCol_none {k : String} (c : String) (v : List String) :
    ∀ (f : Frame), List.lookup k f = none → List.lookup k (setCol f c v) = none
  | [], _ => rfl
  | (a, b) :: t, h1 => by
    simp only [List.lookup] at h1
    split at h1
    · exact Option.noConfusion h1
    · rename_i hne
      rw [setCol_cons]
      by_cases hac : a = c
      · rw [if_pos hac]
        have hkc : (k == c) = false := by
          rw [← hac]
          exact hne
        simp only [List.lookup, hkc]
        exact lookup_setCol_none c v t h1
      · rw [if_neg hac]
        simp only [List.lookup, hne]
        exact lookup_setCol_none c v t h1

/-! Claim theorems. -/

/-- C1 counterexample: title cleaning is not idempotent as claimed.  On
this nested title one pass removes the inner keyword group, which splices
the enclosing brackets into a new keyword group, so a second pass removes
more. -/
theorem c1_counterexample :
    clean_album_title (clean_album_title "(del(bonus)uxe)".toList) ≠
      clean_album_title "(del(bonus)uxe)".toList := by
  decide

/-- C1 (amended): title cleaning is idempotent on every title with flat
bracket structure, i.e. whose bracket characters never have one opening
bracket immediately followed by another opening bracket; one pass over a
title with nested opening brackets can expose a new keyword-bearing group,
so idempotence fails in general. -/
theorem c1_clean_idempotent_of_flat (t : List Char) (hf : flatTitle t = true) :
    clean_album_title (clean_album_title t) = clean_album_title t := by
  have h1 := noMatch_subAll_of_flat t hf
  have h2 : ∀ u, u <:+ stripBoth (subAll t) → tryMatch u = none := fun u hu =>
    noMatch_stripRight (fun v hv => h1 v (hv.trans (List.dropWhile_suffix _))) u hu
  show stripBoth (subAll (stripBoth (subAll t))) = stripBoth (subAll t)
  rw [subAll_eq_self_of_noMatch h2, stripBoth_stripBoth]

/-- C1 witness: the idempotence theorem applied to a concrete flat title. -/
theorem c1_witness :
    flatTitle "Abbey Road (Remastered)".toList = true ∧
      clean_album_title (clean_album_title "Abbey Road (Remastered)".toList) =
        clean_album_title "Abbey Road (Remastered)".toList :=
  ⟨by decide, c1_clean_idempotent_of_flat _ (by decide)⟩

/-- C6 counterexample: the transform also removes bracketed keyword groups
whose closing bracket does not match the opening one, so it removes more
than the claimed set of substrings. -/
theorem c6_counterexample :
    clean_album_title "A (deluxe]".toList ≠ cleanSpecStated "A (deluxe]".toList ∧
      clean_album_title "A (deluxe]".toList = "A".toList ∧
      cleanSpecStated "A (deluxe]".toList = "A (deluxe]".toList := by
  refine ⟨by decide, by decide, by decide⟩

/-- C6 (amended): for every title, the cleaning transform removes exactly
the leftmost non-overlapping substrings made of an opening bracket, a
bracket-free run containing a keyword case-insensitively, and a closing
bracket of either kind (not necessarily matching the opening one), together
with the whitespace immediately before the group; non-matching bracket
groups are kept, nested groups are never matched, and the result is
trimmed. -/
theorem c6_clean_eq_spec_amended (t : List Char) :
    clean_album_title t = cleanSpecAmended t := by
  show stripBoth (subAll t) = stripBoth (removeAll tryMatch t)
  rw [removeAll_tryMatch_eq_subAll]

/-- C7: the cleanup-review table holds the pair of original and cleaned
title exactly for the rows whose title changed under cleaning, in the row
order of the album table at normalization time (a filtering of the per-row
pairs, not an independently sorted list). -/
theorem c7_cleanup_review (parseYear : String → Option Nat)
    (mapping : List (String × String)) (rows : List RawAlbumRow) :
    (load_albums parseYear mapping rows).2 =
      ((rows.map fun r => (r.title, clean_album_title r.title)).filter
        fun q => !(q.1 == q.2)) ∧
    List.Sublist (load_albums parseYear mapping rows).2
      (rows.map fun r => (r.title, clean_album_title r.title)) := by
  have hrev : (load_albums parseYear mapping rows).2 =
      ((rows.map fun r => (r.title, clean_album_title r.title)).filter
        fun q => !(q.1 == q.2)) := by
    simp only [load_albums, List.filter_map, List.map_map]
    rfl
  exact ⟨hrev, hrev ▸ List.filter_sublist _⟩

/-- C8: album normalization never fails on an unparseable release date:
every row is retained, and each row's Release Year is exactly the parse
result of its own date string, absent only for the rows whose date does not
parse while every other row keeps its derived year. -/
theorem c8_release_year (parseYear : String → Option Nat)
    (mapping : List (String × String)) (rows : List RawAlbumRow) :
    ((load_albums parseYear mapping rows).1.map fun r => r.releaseYear) =
      rows.map (fun r => parseYear r.releasedDate) ∧
    (load_albums parseYear mapping rows).1.length = rows.length := by
  constructor
  · simp only [load_albums, List.map_map]
    rfl
  · simp [load_albums]

/-- C4: the aggregated roster contains an entry for exactly the artist
names appearing in either normalized table, without duplicates; each
entry's album count equals the number of album rows of that artist (0 when
it has none), and the roster is sorted strictly ascending by name in the
code-point lexicographic order. -/
theorem c4_roster (ad : List String) (al : List AlbumRow) :
    (∀ a : String, a ∈ (get_all_artists ad al).map Prod.fst ↔
        (a ∈ ad ∨ a ∈ al.map fun r => r.artist)) ∧
    ((get_all_artists ad al).map Prod.fst).Nodup ∧
    (∀ p ∈ get_all_artists ad al, p.2 = (al.filter fun r => r.artist == p.1).length) ∧
    List.Pairwise (fun p q : String × Nat => nameLt p.1 q.1) (get_all_artists ad al) := by
  refine ⟨?_, get_all_artists_names_nodup ad al, ?_, get_all_artists_sorted ad al⟩
  · intro a
    constructor
    · intro ha
      obtain ⟨p, hp, hpa⟩ := List.mem_map.mp ha
      subst hpa
      exact (mem_get_all_artists.mp hp).1
    · intro ha
      exact List.mem_map.mpr ⟨(a, albumCountOf al a), mem_get_all_artists.mpr ⟨ha, rfl⟩, rfl⟩
  · intro p hp
    exact (mem_get_all_artists.mp hp).2

/-- C4 witness: the roster facts instantiated on a concrete catalog. -/
theorem c4_witness :
    ("Beatles" ∈ (get_all_artists ["Beatles"] [abbeyRoadRow]).map Prod.fst) ∧
    ("Beatles", 1).2 =
      (([abbeyRoadRow] : List AlbumRow).filter fun r => r.artist == "Beatles").length := by
  have h := c4_roster ["Beatles"] [abbeyRoadRow]
  exact ⟨(h.1 "Beatles").mpr (Or.inl (by decide)), h.2.2.1 ("Beatles", 1) (by decide)⟩

/-- C2: the missing-from-followed result contains exactly the roster
artist names that are neither followed nor excluded, sorted ascending in
the code-point lexicographic order and without duplicates; consequently it
is disjoint from the exclude set. -/
theorem c2_missing_from_followed (ad : List String) (al : List AlbumRow)
    (seated excl : List String) :
    (∀ a : String, a ∈ formatted_missing_seated_artists ad al seated excl ↔
        (a ∈ (get_all_artists ad al).map Prod.fst ∧ a ∉ seated ∧ a ∉ excl)) ∧
    List.Sorted nameLe (formatted_missing_seated_artists ad al seated excl) ∧
    (formatted_missing_seated_artists ad al seated excl).Nodup ∧
    (∀ a ∈ excl, a ∉ formatted_missing_seated_artists ad al seated excl) := by
  unfold formatted_missing_seated_artists
  split
  · rename_i hemp
    rw [List.isEmpty_eq_true] at hemp
    refine ⟨?_, by simp, by simp, by simp⟩
    intro a
    rw [hemp]
    simp
  · have hmem : ∀ a : String,
        a ∈ List.insertionSort nameLe
          ((((get_all_artists ad al).map Prod.fst).dedup).filter fun a =>
            !(decide (a ∈ seated)) && !(decide (a ∈ excl))) ↔
          (a ∈ (get_all_artists ad al).map Prod.fst ∧ a ∉ seated ∧ a ∉ excl) := by
      intro a
      rw [List.mem_insertionSort, List.mem_filter, List.mem_dedup]
      simp [and_assoc]
    haveI : IsTotal String nameLe := ⟨nameLe_total⟩
    haveI : IsTrans String nameLe := ⟨nameLe_trans⟩
    refine ⟨hmem, List.sorted_insertionSort nameLe _, ?_, ?_⟩
    · exact (List.perm_insertionSort nameLe _).nodup_iff.mpr
        ((List.nodup_dedup _).filter _)
    · intro a ha hcontra
      exact ((hmem a).mp hcontra).2.2 ha

/-- C2 witness: the reconciliation facts instantiated on a concrete
catalog, followed list and exclude set. -/
theorem c2_witness :
    "B" ∈ formatted_missing_seated_artists ["A", "B"] [] ["A"] ["C"] ∧
      "C" ∉ formatted_missing_seated_artists ["A", "B"] [] ["A"] ["C"] := by
  have h := c2_missing_from_followed ["A", "B"] [] ["A"] ["C"]
  exact ⟨(h.1 "B").mpr ⟨by decide, by decide, by decide⟩, h.2.2.2 "C" (by decide)⟩

/-- C10: the missing-from-followed computation is deterministic across
runs: permuting the followed list and the exclude set (the iteration order
of the sets) leaves the returned list identical, order included, because
only membership is consulted and the result is sorted before being
returned. -/
theorem c10_missing_deterministic (ad : List String) (al : List AlbumRow)
    {s1 s2 e1 e2 : List String} (hs : List.Perm s1 s2) (he : List.Perm e1 e2) :
    formatted_missing_seated_artists ad al s1 e1 =
      formatted_missing_seated_artists ad al s2 e2 := by
  unfold formatted_missing_seated_artists
  have hfil : ((((get_all_artists ad al).map Prod.fst).dedup).filter fun a =>
      !(decide (a ∈ s1)) && !(decide (a ∈ e1))) =
      ((((get_all_artists ad al).map Prod.fst).dedup).filter fun a =>
      !(decide (a ∈ s2)) && !(decide (a ∈ e2))) := by
    apply List.filter_congr
    intro a _
    have h1 : decide (a ∈ s1) = decide (a ∈ s2) := by
      simp only [decide_eq_decide]
      exact hs.mem_iff
    have h2 : decide (a ∈ e1) = decide (a ∈ e2) := by
      simp only [decide_eq_decide]
      exact he.mem_iff
    rw [h1, h2]
  rw [hfil]

/-- C10 witness: two runs over the same data with the sets enumerated in a
different order return the identical list. -/
theorem c10_witness :
    formatted_missing_seated_artists ["A", "B"] [] ["B", "Z"] ["Q"] =
      formatted_missing_seated_artists ["A", "B"] [] ["Z", "B"] ["Q"] :=
  c10_missing_deterministic ["A", "B"] [] (by decide) (by decide)

/-- C3: the missing-from-library result contains exactly the followed
names absent from the roster, without duplicates and sorted ascending in
the code-point lexicographic order, and the exclude set does not enter the
computation at all; together with sortedness, duplicate-freeness pins the
result as the sorted enumeration of the set difference. -/
theorem c3_missing_from_library (roster : List (String × Nat))
    (followed e1 e2 : List String) :
    (∀ a : String, a ∈ missing_from_library roster followed e1 ↔
        (a ∈ followed ∧ a ∉ roster.map Prod.fst)) ∧
    List.Sorted nameLe (missing_from_library roster followed e1) ∧
    (missing_from_library roster followed e1).Nodup ∧
    missing_from_library roster followed e1 = missing_from_library roster followed e2 := by
  haveI : IsTotal String nameLe := ⟨nameLe_total⟩
  haveI : IsTrans String nameLe := ⟨nameLe_trans⟩
  refine ⟨?_, List.sorted_insertionSort nameLe _, ?_, rfl⟩
  · intro a
    unfold missing_from_library
    rw [List.mem_insertionSort, List.mem_filter, List.mem_dedup]
    simp
  · exact (List.perm_insertionSort nameLe _).nodup_iff.mpr
      ((List.nodup_dedup _).filter _)

/-- C3 witness: scenario of the spec with roster artist A having two
albums, followed artists A and C, and an empty exclude set. -/
theorem c3_witness :
    "C" ∈ missing_from_library [("A", 2)] ["A", "C"] [] ∧
      "A" ∉ missing_from_library [("A", 2)] ["A", "C"] [] := by
  have h := c3_missing_from_library [("A", 2)] ["A", "C"] [] []
  refine ⟨(h.1 "C").mpr ⟨by decide, by decide⟩, fun hA => ?_⟩
  exact ((h.1 "A").mp hA).2 (by decide)

/-- C9 counterexample: loading a parsed artist source that lacks the name
field leaves the raw parsed rows in the artist table, which is therefore
not left empty as the claim requires. -/
theorem c9_counterexample :
    (load_artists_f emptyManagerF (some [("nombre", ["X"])])).artist_data =
      [("nombre", ["X"])] ∧
    (load_artists_f emptyManagerF (some [("nombre", ["X"])])).artist_data ≠ [] := by
  refine ⟨by decide, by decide⟩

/-- C9 (amended): a failed load is absorbed by the except clause and never
aborts sibling loads: an unparseable source leaves the whole state
unchanged, a parsed album source missing any of its required columns
(Album Title, Release Date or Artist, after the rename) leaves the whole
state unchanged, and a parsed artist source missing the name field leaves
the raw parsed frame stored in the artist table (so that table is empty
afterwards only when nothing had been stored before); in every case the
tables of the sibling sources are untouched. -/
theorem c9_load_errors :
    (∀ m : ManagerF, load_artists_f m none = m) ∧
    (∀ (m : ManagerF) (df : Frame), df.lookup "name" = none →
      load_artists_f m (some df) = { m with artist_data := df }) ∧
    (∀ (pd py : String → String) (m : ManagerF), load_albums_f pd py m none = m) ∧
    (∀ (pd py : String → String) (m : ManagerF) (df : Frame),
      (df.map fun p => (renameAlbumCol p.1, p.2)).lookup "Album Title" = none →
      load_albums_f pd py m (some df) = m) ∧
    (∀ (pd py : String → String) (m : ManagerF) (df : Frame),
      (df.map fun p => (renameAlbumCol p.1, p.2)).lookup "Release Date" = none →
      load_albums_f pd py m (some df) = m) ∧
    (∀ (pd py : String → String) (m : ManagerF) (df : Frame),
      (df.map fun p => (renameAlbumCol p.1, p.2)).lookup "Artist" = none →
      load_albums_f pd py m (some df) = m) ∧
    (∀ (m : ManagerF) (src : Option Frame),
      (load_artists_f m src).album_data = m.album_data ∧
      (load_artists_f m src).cleanup_review = m.cleanup_review ∧
      (load_artists_f m src).seated_artist_data = m.seated_artist_data ∧
      (load_artists_f m src).exclude_artists = m.exclude_artists) ∧
    (∀ (pd py : String → String) (m : ManagerF) (src : Option Frame),
      (load_albums_f pd py m src).artist_data = m.artist_data ∧
      (load_albums_f pd py m src).seated_artist_data = m.seated_artist_data ∧
      (load_albums_f pd py m src).exclude_artists = m.exclude_artists) := by
  refine ⟨fun m => rfl, ?_, fun pd py m => rfl, ?_, ?_, ?_, ?_, ?_⟩
  · intro m df h
    simp [load_artists_f, h]
  · intro pd py m df h
    simp [load_albums_f, h]
  · intro pd py m df h
    simp only [load_albums_f]
    split
    · rfl
    · rename_i titles hAT
      have h2 : List.lookup "Release Date"
          ((df.map fun p => (renameAlbumCol p.1, p.2)) ++
            [("Original Album Title", titles)]) = none :=
        lookup_append_none _ h rfl
      split
      · rfl
      · rename_i dates hRD
        rw [h2] at hRD
        exact Option.noConfusion hRD
  · intro pd py m df h
    simp only [load_albums_f]
    split
    · rfl
    · rename_i titles hAT
      split
      · rfl
      · rename_i dates hRD
        have h2 : List.lookup "Artist"
            ((df.map fun p => (renameAlbumCol p.1, p.2)) ++
              [("Original Album Title", titles)]) = none :=
          lookup_append_none _ h rfl
        have h3 := lookup_setCol_none "Release Date" (dates.map pd) _ h2
        have h4 : List.lookup "Artist"
            (setCol ((df.map fun p => (renameAlbumCol p.1, p.2)) ++
              [("Original Album Title", titles)]) "Release Date" (dates.map pd) ++
              [("Release Year", dates.map py)]) = none :=
          lookup_append_none _ h3 rfl
        have h5 := lookup_setCol_none "Album Title" (titles.map clean_album_title_str) _ h4
        split
        · rfl
        · rename_i artists hA
          rw [h5] at hA
          exact Option.noConfusion hA
  · intro m src
    rcases src with _ | df
    · exact ⟨rfl, rfl, rfl, rfl⟩
    · have hshape : load_artists_f m (some df) = m ∨
          ∃ adf, load_artists_f m (some df) = { m with artist_data := adf } := by
        simp only [load_artists_f]
        split
        · exact Or.inr ⟨_, rfl⟩
        · exact Or.inr ⟨_, rfl⟩
      rcases hshape with h | ⟨adf, h⟩ <;> rw [h] <;> exact ⟨rfl, rfl, rfl, rfl⟩
  · intro pd py m src
    rcases src with _ | df
    · exact ⟨rfl, rfl, rfl⟩
    · have hshape : load_albums_f pd py m (some df) = m ∨
          ∃ cr alb, load_albums_f pd py m (some df) =
            { m with cleanup_review := cr, album_data := alb } := by
        simp only [load_albums_f]
        split
        · exact Or.inl rfl
        · split
          · exact Or.inl rfl
          · split
            · exact Or.inl rfl
            · exact Or.inr ⟨_, _, rfl⟩
      rcases hshape with h | ⟨cr, alb, h⟩ <;> rw [h] <;> exact ⟨rfl, rfl, rfl⟩

/-- C9 witness: a parsed artist source without a name field leaves exactly
the raw frame in the artist table and everything else unchanged. -/
theorem c9_witness :
    load_artists_f emptyManagerF (some [("nombre", ["X"])]) =
      { emptyManagerF with artist_data := [("nombre", ["X"])] } :=
  c9_load_errors.2.1 emptyManagerF [("nombre", ["X"])] (by decide)

end ManageMusic

